import Mathlib

/-!
Verification of `horcrux.py` (Shamir secret sharing over a prime field):
a shallow embedding of the single source file and proofs about it.

Modelling conventions, used consistently below:

* Python integers are `Nat` (all values handled by the prime/polynomial code
  are non-negative) or `Int` (share points fed to `reconstruct`, which the
  caller may choose freely).
* Randomness: every call to `random.randint(lo, hi)` is modelled by passing
  the drawn value explicitly; the predicate `randintOk lo hi v` records which
  draws Python's `randint` can actually produce (both endpoints included).
* Python's float division `xm / (xm - xi)` in `reconstruct` is modelled as
  exact rational division in `ℚ`; `int(f0 % p)` is modelled by `pymod` /
  `pyint` below, matching Python's `%` (sign of the divisor) and `int`
  (truncation toward zero) on the exact value.
* A Python function that can raise (`ZeroDivisionError`) or diverge is
  modelled with `Option`: `none` means "raises / does not terminate".
-/

namespace Horcrux

/-- Python's `random.randint(lo, hi)` returns an integer `v` with
`lo ≤ v ≤ hi`, BOTH endpoints included. -/
def randintOk (lo hi v : ℕ) : Prop :=
  lo ≤ v ∧ v ≤ hi

instance (lo hi v : ℕ) : Decidable (randintOk lo hi v) :=
  inferInstanceAs (Decidable (lo ≤ v ∧ v ≤ hi))

/-- Fuel-indexed embedding of the recursive helper of `miller_rabin`:
`get_dr(d, r) = (d, r)` if `d` is odd, else `get_dr(d // 2, r + 1)`.
`none` models non-termination of the Python recursion (it diverges at
`d = 0`; for `0 < d ≤ fuel` the fuel is sufficient, proved below). -/
def get_drF : ℕ → ℕ → ℕ → Option (ℕ × ℕ)
  | 0, d, r => if d % 2 = 1 then some (d, r) else none
  | f + 1, d, r => if d % 2 = 1 then some (d, r) else get_drF f (d / 2) (r + 1)

/-- Total version of `get_dr d r` as used by `miller_rabin`: fuel `d` suffices whenever
`0 < d` (proved below); the default value is never used there. -/
def get_dr (d r : ℕ) : ℕ × ℕ :=
  (get_drF d d r).getD (d, r)

/-- The witness loop of `miller_rabin.test`:
`for _ in range(k): x = x*x % n; if x == n-1: return True`. -/
def sqLoop (x n : ℕ) : ℕ → Bool
  | 0 => false
  | k + 1 =>
    let y := x * x % n
    if y = n - 1 then true else sqLoop y n k

/-- The inner witness function `test(n, d, r)` of `miller_rabin`; the random
witness `a = rd.randint(2, n - 2)` is passed explicitly. -/
def test (n d r a : ℕ) : Bool :=
  let x := a ^ d % n
  if x = 1 ∨ x = n - 1 then true else sqLoop x n r

/-- Embedding of `miller_rabin(n, tol=128)`. Python draws `k = tol // 2 + 1` random
witnesses inside `test`; the list of drawn witnesses is passed as `ws`. -/
def miller_rabin (n : ℕ) (ws : List ℕ) : Bool :=
  if n = 2 ∨ n = 3 then true
  else if n = 1 ∨ n % 2 = 0 then false
  else
    let dr := get_dr (n - 1) 0
    ws.all fun a => test n dr.1 dr.2 a

/-- Embedding of `find_prime(bits)`: repeatedly draw `p = rd.randint(2**bits, 2**(bits+1))`
until `miller_rabin(p)` holds. Each element of `draws` is one loop iteration:
the drawn candidate together with the Miller-Rabin witnesses drawn for it.
`none` means the provided draws were exhausted (loop still running). -/
def find_prime (bits : ℕ) (draws : List (ℕ × List ℕ)) : Option ℕ :=
  (draws.find? fun pw => miller_rabin pw.1 pw.2).map fun pw => pw.1

/-- Embedding of `create_polynomial(degree, p)`, i.e.
`[rd.randint(1, p) for _ in range(degree)]`;
the `degree` draws are passed explicitly as `draws`. -/
def create_polynomial (degree : ℕ) (p : ℕ) (draws : List ℕ) : List ℕ :=
  draws.take degree

/-- The helper `f(x) = sum(c * x**i for i, c in enumerate(poly)) % prime`
from `sample_polynomial`. -/
def polyEval (poly : List ℕ) (prime x : ℕ) : ℕ :=
  ((poly.enum.map fun ic => ic.2 * x ^ ic.1).sum) % prime

/-- Embedding of `sample_polynomial(poly, n, prime)`, i.e.
`[(x, f(x)) for x in range(1, n + 1)]`. -/
def sample_polynomial (poly : List ℕ) (n : ℕ) (prime : ℕ) : List (ℕ × ℕ) :=
  (List.range' 1 n).map fun x => (x, polyEval poly prime x)

/-- Number of binary digits of `n` (`0` for `n = 0`), fuel-indexed so that it
computes by kernel reduction; fuel `n` suffices. -/
def bitLenF : ℕ → ℕ → ℕ
  | 0, _ => 0
  | f + 1, n => if n = 0 then 0 else bitLenF f (n / 2) + 1

/-- Python's `len(bin(secret)) - 2`: the bit length of `secret` (`1` for `secret = 0`,
since `bin(0) = "0b0"`). -/
def binLen (secret : ℕ) : ℕ :=
  if secret = 0 then 1 else bitLenF secret secret

/-- Embedding of `make_shares(secret, n)`. Random draws are passed explicitly:
`pdraws` feeds `find_prime`, `cdraws` feeds `create_polynomial`. -/
def make_shares (secret n : ℕ) (pdraws : List (ℕ × List ℕ)) (cdraws : List ℕ) :
    Option (List (ℕ × ℕ) × ℕ) :=
  let k := n / 2 + 1
  (find_prime (binLen secret) pdraws).map fun p =>
    (sample_polynomial (secret :: create_polynomial (k - 1) p cdraws) n p, p)

/-- Python's `%` on the exact value of `f0` and a (nonzero) integer modulus:
`a % p = a - p * floor(a / p)`, result carrying the sign of `p`. -/
def pymod (a : ℚ) (p : ℤ) : ℚ :=
  a - (p : ℚ) * ((⌊a / (p : ℚ)⌋ : ℤ) : ℚ)

/-- Python's `int(...)` on the exact value: truncation toward zero. -/
def pyint (q : ℚ) : ℤ :=
  if 0 ≤ q then ⌊q⌋ else -⌊-q⌋

/-- The inner loop of `reconstruct`:
`prod = 1; for xm, _ in pts: if xi != xm: prod *= xm / (xm - xi)`. -/
def lagProd (pts : List (ℤ × ℤ)) (pt : ℤ × ℤ) : ℚ :=
  ((pts.filter fun pm => pt.1 != pm.1).map fun pm =>
    (pm.1 : ℚ) / ((pm.1 : ℚ) - (pt.1 : ℚ))).prod

/-- The accumulator of `reconstruct`: `f0 += prod * yi` over all points,
in the exact-rational idealization. Real IEEE-754 float summation rounds
and is therefore order-sensitive; that behaviour is not modelled. -/
def f0 (pts : List (ℤ × ℤ)) : ℚ :=
  (pts.map fun pt => lagProd pts pt * (pt.2 : ℚ)).sum

/-- Embedding of `reconstruct(pts, p) = int(f0 % p)`, with the float
arithmetic of the source idealized as exact rational arithmetic. IEEE-754
rounding and overflow are NOT modelled: a statement proved from this
definition is about the idealization, and transfers to the real float run
only where the two agree — checked input by input for the concrete
evaluations below; universally quantified rounding- or overflow-sensitive
properties of the float run are outside this embedding. -/
def reconstruct (pts : List (ℤ × ℤ)) (p : ℤ) : ℤ :=
  pyint (pymod (f0 pts) p)

/-- Division that raises `ZeroDivisionError` on a zero denominator. -/
def divE (a b : ℚ) : Option ℚ :=
  if b = 0 then none else some (a / b)

/-- Evaluate a list of possibly-raising computations left to right,
propagating the first exception (`none`). -/
def mapME {α β : Type} (f : α → Option β) : List α → Option (List β)
  | [] => some []
  | a :: l =>
    match f a, mapME f l with
    | some b, some bs => some (b :: bs)
    | _, _ => none

/-- The `ZeroDivisionError` paths of `reconstruct`, checked: `none` iff the
run would execute `xm / (xm - xi)` with `xm = xi`, or `% p` with `p = 0`.
Whether these paths are taken depends only on the integer x-coordinates and
`p` — never on float values — so this check is exact for the real run.
CPython's float path can ALSO raise `OverflowError` (for example when an
int operand beyond double range is converted); that failure mode is
deliberately not modelled, so `reconstructE pts p = some v` asserts that no
`ZeroDivisionError` occurs and that the exact-arithmetic value is `v`; it
does not assert totality of the real float run. -/
def reconstructE (pts : List (ℤ × ℤ)) (p : ℤ) : Option ℤ :=
  (mapME (fun pt =>
      (mapME (fun pm => divE (pm.1 : ℚ) ((pm.1 : ℚ) - (pt.1 : ℚ)))
          (pts.filter fun pm => pt.1 != pm.1)).map
        fun fs => fs.prod * (pt.2 : ℚ)) pts).bind
    fun terms => if p = 0 then none else some (pyint (pymod terms.sum p))

/-- Cast shares produced by `make_shares` to the integer points consumed
by `reconstruct`. -/
def toZ (l : List (ℕ × ℕ)) : List (ℤ × ℤ) :=
  l.map fun pt => ((pt.1 : ℤ), (pt.2 : ℤ))

/-- Modelled from the spec: `modinv(v, prime) = v^(prime-2) mod prime`
(Fermat's little theorem). No such function exists in the source; it is
needed to state the algorithm the spec describes for `reconstruct`. -/
def modinv (v p : ℤ) : ℤ :=
  v ^ (p - 2).toNat % p

/-- Modelled from the spec (§4.5): Lagrange interpolation at `x = 0` computed
in the prime field, `Li = Π (-xj * modinv(xi - xj, p)) mod p` and
`f0 = Σ yi * Li mod p`, normalized to `[0, p)`. The source's `reconstruct`
does NOT implement this; the definition exists to compare the two. -/
def reconstruct_spec (pts : List (ℤ × ℤ)) (p : ℤ) : ℤ :=
  (pts.map fun pt =>
    pt.2 * ((pts.filter fun pm => pt.1 != pm.1).map fun pm =>
      (-pm.1 * modinv (pt.1 - pm.1) p) % p).prod).sum % p

/-! ## Basic properties of `get_dr` -/

/-- Fuel `f ≥ d` suffices for `get_drF` whenever `d` is positive. -/
lemma get_drF_isSome :
    ∀ f d r, 0 < d → d ≤ f → (get_drF f d r).isSome = true := by
  intro f
  induction f with
  | zero => intro d r hd hf; omega
  | succ f ih =>
    intro d r hd hf
    by_cases h2 : d % 2 = 1
    · simp [get_drF, h2]
    · have hd2 : d % 2 = 0 := by omega
      have : 0 < d / 2 := by omega
      have : d / 2 ≤ f := by omega
      simpa [get_drF, h2] using ih (d / 2) (r + 1) ‹0 < d / 2› ‹d / 2 ≤ f›

/-- What `get_drF` computes: an odd `d'` with `2^r * d = 2^r' * d'`. -/
lemma get_drF_spec :
    ∀ f d r d' r', get_drF f d r = some (d', r') →
      d' % 2 = 1 ∧ 2 ^ r * d = 2 ^ r' * d' ∧ r ≤ r' := by
  intro f
  induction f with
  | zero =>
    intro d r d' r' h
    by_cases h2 : d % 2 = 1
    · simp [get_drF, h2] at h
      exact ⟨by omega, by rw [h.1, h.2], by omega⟩
    · simp [get_drF, h2] at h
  | succ f ih =>
    intro d r d' r' h
    by_cases h2 : d % 2 = 1
    · simp [get_drF, h2] at h
      exact ⟨by omega, by rw [h.1, h.2], by omega⟩
    · simp only [get_drF, h2, if_false] at h
      obtain ⟨ho, he, hr⟩ := ih (d / 2) (r + 1) d' r' h
      refine ⟨ho, ?_, by omega⟩
      have hd : d = 2 * (d / 2) := by omega
      calc 2 ^ r * d = 2 ^ (r + 1) * (d / 2) := by
            rw [pow_succ]; conv_lhs => rw [hd]
            ring
      _ = 2 ^ r' * d' := he

/-- For positive `d`, `get_dr` is the value computed by the recursion. -/
lemma get_drF_get_dr (d r : ℕ) (hd : 0 < d) :
    get_drF d d r = some (get_dr d r) := by
  have h := get_drF_isSome d d r hd le_rfl
  cases hx : get_drF d d r with
  | none => rw [hx] at h; simp at h
  | some x => simp [get_dr, hx]

/-! ## Basic properties of `miller_rabin` and `find_prime` -/

/-- Every even number other than `2` fails `miller_rabin`, whatever the
witnesses are. -/
lemma miller_rabin_even (n : ℕ) (ws : List ℕ) (h2 : n % 2 = 0) (hne : n ≠ 2) :
    miller_rabin n ws = false := by
  unfold miller_rabin
  rw [if_neg, if_pos (Or.inr h2)]
  rintro (h | h)
  · exact hne h
  · omega

/-- A value returned by `find_prime` is one of the drawn candidates, and it
passed `miller_rabin` with the witnesses drawn for it. -/
lemma find_prime_some (bits v : ℕ) (draws : List (ℕ × List ℕ))
    (h : find_prime bits draws = some v) :
    ∃ ws, (v, ws) ∈ draws ∧ miller_rabin v ws = true := by
  unfold find_prime at h
  cases hf : draws.find? fun pw => miller_rabin pw.1 pw.2 with
  | none => rw [hf] at h; simp at h
  | some pw =>
    rw [hf] at h
    simp only [Option.map_some', Option.some.injEq] at h
    subst h
    refine ⟨pw.2, ?_, ?_⟩
    · rw [Prod.mk.eta]; exact List.mem_of_find?_eq_some hf
    · simpa using List.find?_some hf

/-- With sufficient fuel, `bitLenF` bounds its argument: `n < 2 ^ bitLenF f n`. -/
lemma bitLenF_lt : ∀ f n, n ≤ f → n < 2 ^ bitLenF f n := by
  intro f
  induction f with
  | zero => intro n h; interval_cases n; simp [bitLenF]
  | succ f ih =>
    intro n h
    by_cases h0 : n = 0
    · simp [bitLenF, h0]
    · have h2 : n / 2 ≤ f := by omega
      have := ih (n / 2) h2
      have hpow : 2 ^ (bitLenF f (n / 2) + 1) = 2 * 2 ^ bitLenF f (n / 2) := by
        rw [pow_succ]; ring
      simp only [bitLenF, h0, if_false]
      omega

/-- Python's `len(bin(s)) - 2` bounds the secret: `s < 2 ^ binLen s`. -/
lemma binLen_lt (s : ℕ) : s < 2 ^ binLen s := by
  unfold binLen
  by_cases h0 : s = 0
  · simp [h0]
  · rw [if_neg h0]
    exact bitLenF_lt s s le_rfl

/-! ## Basic properties of `reconstruct` -/

/-- If no element of the list raises, `mapME` returns all the values. -/
lemma mapME_eq_some {α β : Type} (f : α → Option β) (g : α → β) :
    ∀ l : List α, (∀ x ∈ l, f x = some (g x)) → mapME f l = some (l.map g) := by
  intro l
  induction l with
  | nil => intro _; rfl
  | cons a l ih =>
    intro h
    have ha := h a (by simp)
    have hl := ih fun x hx => h x (by simp [hx])
    simp [mapME, ha, hl]

/-- The `ZeroDivisionError` path of `reconstruct` is never taken for a
nonzero modulus: the `xi != xm` guard keeps every executed division away
from a zero denominator. (This asserts nothing about the float
`OverflowError` path, which `reconstructE` does not model.) -/
lemma reconstructE_eq_some (pts : List (ℤ × ℤ)) (p : ℤ) (hp : p ≠ 0) :
    reconstructE pts p = some (reconstruct pts p) := by
  have houter : mapME (fun pt =>
      (mapME (fun pm => divE (pm.1 : ℚ) ((pm.1 : ℚ) - (pt.1 : ℚ)))
          (pts.filter fun pm => pt.1 != pm.1)).map
        fun fs => fs.prod * (pt.2 : ℚ)) pts
      = some (pts.map fun pt => lagProd pts pt * (pt.2 : ℚ)) := by
    apply mapME_eq_some
    intro pt _
    have hinner : mapME (fun pm => divE (pm.1 : ℚ) ((pm.1 : ℚ) - (pt.1 : ℚ)))
        (pts.filter fun pm => pt.1 != pm.1)
        = some ((pts.filter fun pm => pt.1 != pm.1).map
            fun pm => (pm.1 : ℚ) / ((pm.1 : ℚ) - (pt.1 : ℚ))) := by
      apply mapME_eq_some
      intro pm hpm
      have hne : pt.1 ≠ pm.1 := by simpa using (List.mem_filter.mp hpm).2
      have hsub : (pm.1 : ℚ) - (pt.1 : ℚ) ≠ 0 := by
        intro h0
        exact hne (by exact_mod_cast (sub_eq_zero.mp h0).symm)
      simp [divE, hsub]
    rw [hinner]
    simp [lagProd]
  unfold reconstructE
  rw [houter, Option.some_bind, if_neg hp]
  rfl

/-! ## The extra squaring in `miller_rabin` can never fire

The Python witness loop runs `r` squarings where the textbook algorithm runs
`r - 1`. The value inspected by the extra iteration is `a^(n-1) mod n`, and
`a^(n-1) ≡ -1 (mod n)` is impossible for odd `n > 3`: every prime factor `q`
of `n` would satisfy `2^(r+1) ∣ ord_q(a) ∣ q - 1`, forcing
`n ≡ 1 (mod 2^(r+1))`, which contradicts `n - 1 = 2^r * d` with `d` odd. -/

/-- If `t` divides `2^(r+1) * d` (`d` odd) but not `2^r * d`, then
`2^(r+1) ∣ t`. -/
lemma two_pow_succ_dvd (t r d : ℕ) (hd : d % 2 = 1)
    (h1 : t ∣ 2 ^ (r + 1) * d) (h2 : ¬ t ∣ 2 ^ r * d) : 2 ^ (r + 1) ∣ t := by
  have hd0 : d ≠ 0 := by omega
  have hm1 : 2 ^ (r + 1) * d ≠ 0 := by positivity
  have hm0 : 2 ^ r * d ≠ 0 := by positivity
  have ht0 : t ≠ 0 := by
    rintro rfl
    exact hm1 (zero_dvd_iff.mp h1)
  have hfac_at : ∀ k p : ℕ, (2 ^ k * d).factorization p
      = (Finsupp.single 2 k) p + d.factorization p := by
    intro k p
    rw [Nat.factorization_mul (pow_ne_zero k two_ne_zero) hd0,
      Nat.Prime.factorization_pow Nat.prime_two]
    simp [Finsupp.add_apply]
  have hpt : ∀ p, t.factorization p ≤ (2 ^ (r + 1) * d).factorization p :=
    Finsupp.le_def.mp ((Nat.factorization_le_iff_dvd ht0 hm1).mpr h1)
  by_cases hs : t.factorization 2 ≤ r
  · exfalso
    apply h2
    apply (Nat.factorization_le_iff_dvd ht0 hm0).mp
    apply Finsupp.le_def.mpr
    intro p
    by_cases hp2 : p = 2
    · subst hp2
      rw [hfac_at r 2, Finsupp.single_eq_same]
      have hdf : d.factorization 2 = 0 :=
        Nat.factorization_eq_zero_of_not_dvd (by omega)
      omega
    · have h := hpt p
      rw [hfac_at (r + 1) p, Finsupp.single_apply, if_neg (fun h => hp2 h.symm)] at h
      rw [hfac_at r p, Finsupp.single_apply, if_neg (fun h => hp2 h.symm)]
      omega
  · have h2t : 2 ^ (r + 1) ∣ 2 ^ t.factorization 2 := pow_dvd_pow 2 (by omega)
    exact h2t.trans (Nat.ordProj_dvd t 2)

/-- If every prime factor of `n` is `≡ 1 (mod m)`, then so is `n`. -/
lemma modEq_one_of_forall_prime (m : ℕ) :
    ∀ n, n ≠ 0 → (∀ q, Nat.Prime q → q ∣ n → q ≡ 1 [MOD m]) →
      n ≡ 1 [MOD m] := by
  intro n
  induction n using Nat.strong_induction_on with
  | _ n ih =>
    intro hn hq
    by_cases h1 : n = 1
    · rw [h1]
    · have hp : (n.minFac).Prime := Nat.minFac_prime h1
      have hd : n.minFac ∣ n := Nat.minFac_dvd n
      have heq : n = n.minFac * (n / n.minFac) := (Nat.mul_div_cancel' hd).symm
      have hdiv_ne : n / n.minFac ≠ 0 := by
        have := Nat.div_pos (Nat.le_of_dvd (by omega) hd) hp.pos
        omega
      have hlt : n / n.minFac < n := Nat.div_lt_self (by omega) hp.one_lt
      have hdvd2 : n / n.minFac ∣ n := ⟨n.minFac, by rw [mul_comm]; exact heq⟩
      have hrec := ih (n / n.minFac) hlt hdiv_ne
        fun q hq' hq'' => hq q hq' (hq''.trans hdvd2)
      have := Nat.ModEq.mul (hq _ hp hd) hrec
      rw [← heq, one_mul] at this
      exact this

/-- For odd `n > 3`, no base `a` satisfies `a^(n-1) ≡ n - 1 (mod n)`. -/
lemma pow_sub_one_mod_ne (n d r a : ℕ) (hodd : n % 2 = 1) (h3 : 3 < n)
    (hdr : n - 1 = 2 ^ r * d) (hd : d % 2 = 1) :
    a ^ (n - 1) % n ≠ n - 1 := by
  intro hmod
  have hn0 : n ≠ 0 := by omega
  have hn1 : (1 : ℕ) ≤ n := by omega
  -- in `ZMod n`, the hypothesis says `a^(n-1) = -1`
  have hzn : ((a : ZMod n)) ^ (n - 1) = -1 := by
    have hmodeq : a ^ (n - 1) ≡ n - 1 [MOD n] := by
      unfold Nat.ModEq
      rw [hmod, Nat.mod_eq_of_lt (by omega)]
    have hcast := (ZMod.natCast_eq_natCast_iff _ _ _).mpr hmodeq
    push_cast at hcast
    rw [Nat.cast_sub hn1, ZMod.natCast_self, zero_sub, Nat.cast_one] at hcast
    exact hcast
  -- each prime factor of n is ≡ 1 (mod 2^(r+1))
  have hq1 : ∀ q, Nat.Prime q → q ∣ n → q ≡ 1 [MOD 2 ^ (r + 1)] := by
    intro q hq hqd
    haveI : Fact q.Prime := ⟨hq⟩
    have hq2 : q ≠ 2 := by rintro rfl; omega
    have hq3 : 2 < q := by have := hq.two_le; omega
    haveI : Fact (2 < q) := ⟨hq3⟩
    have hx : ((a : ZMod q)) ^ (n - 1) = -1 := by
      have h := congrArg (ZMod.castHom hqd (ZMod q)) hzn
      rwa [map_pow, map_neg, map_one, map_natCast] at h
    have hx0 : (a : ZMod q) ≠ 0 := by
      intro h0
      rw [h0, zero_pow (by omega : n - 1 ≠ 0)] at hx
      have : (1 : ZMod q) = 0 := neg_eq_zero.mp hx.symm
      exact one_ne_zero this
    have hdvd2m : orderOf (a : ZMod q) ∣ 2 ^ (r + 1) * d := by
      apply orderOf_dvd_of_pow_eq_one
      rw [show 2 ^ (r + 1) * d = (n - 1) * 2 by rw [hdr, pow_succ]; ring,
        pow_mul, hx]
      exact neg_one_sq
    have hndvd : ¬ orderOf (a : ZMod q) ∣ 2 ^ r * d := by
      rw [← hdr]
      intro hdvd
      have h1 := orderOf_dvd_iff_pow_eq_one.mp hdvd
      rw [h1] at hx
      exact ZMod.neg_one_ne_one hx.symm
    have h2t := two_pow_succ_dvd (orderOf (a : ZMod q)) r d hd hdvd2m hndvd
    have htq : orderOf (a : ZMod q) ∣ q - 1 :=
      orderOf_dvd_of_pow_eq_one (ZMod.pow_card_sub_one_eq_one hx0)
    exact ((Nat.modEq_iff_dvd' hq.one_le).mpr (h2t.trans htq)).symm
  -- hence n ≡ 1 (mod 2^(r+1)), so 2 ∣ d: contradiction
  have hn_mod := modEq_one_of_forall_prime (2 ^ (r + 1)) n hn0 hq1
  have hdvd_n1 : 2 ^ (r + 1) ∣ n - 1 := (Nat.modEq_iff_dvd' hn1).mp hn_mod.symm
  rw [hdr, pow_succ] at hdvd_n1
  have h2d : (2 : ℕ) ∣ d :=
    (Nat.mul_dvd_mul_iff_left (pow_pos (by omega : (0:ℕ) < 2) r)).mp hdvd_n1
  omega

/-- The witness loop hits `n - 1` within `k` squarings iff some
`x^(2^j) mod n`, `1 ≤ j ≤ k`, equals `n - 1`. -/
lemma sqLoop_iff (n : ℕ) (hn : 0 < n) :
    ∀ k x, (sqLoop x n k = true ↔
      ∃ j, 1 ≤ j ∧ j ≤ k ∧ x ^ 2 ^ j % n = n - 1) := by
  intro k
  induction k with
  | zero =>
    intro x
    simp only [sqLoop]
    constructor
    · intro h; exact absurd h (by simp)
    · rintro ⟨j, h1, h2, _⟩; omega
  | succ k ih =>
    intro x
    have hstep : ∀ i : ℕ, (x * x % n) ^ 2 ^ i % n = x ^ 2 ^ (i + 1) % n := by
      intro i
      rw [← Nat.pow_mod, ← pow_two, ← pow_mul, ← pow_succ']
    have h21 : x ^ 2 ^ 1 % n = x * x % n := by
      rw [pow_one, pow_two]
    simp only [sqLoop]
    by_cases h : x * x % n = n - 1
    · rw [if_pos h]
      constructor
      · intro _
        exact ⟨1, le_refl 1, by omega, by rw [h21]; exact h⟩
      · intro _; rfl
    · rw [if_neg h, ih (x * x % n)]
      constructor
      · rintro ⟨i, h1, h2, he⟩
        exact ⟨i + 1, by omega, by omega, by rw [← hstep i]; exact he⟩
      · rintro ⟨j, h1, h2, he⟩
        rcases Nat.lt_or_ge j 2 with hj | hj
        · exfalso
          have hj1 : j = 1 := by omega
          subst hj1
          rw [h21] at he
          exact h he
        · obtain ⟨i, rfl⟩ : ∃ i, j = i + 1 := ⟨j - 1, by omega⟩
          exact ⟨i, by omega, by omega, by rw [hstep i]; exact he⟩

/-- The observable behaviour of the witness `test`, for odd `n > 3` with
`n - 1 = 2^r * d`, `d` odd: although the Python loop performs up to `r`
squarings, the `r`-th squaring inspects `a^(n-1) mod n`, which can never be
`n - 1`; so the outcome is exactly the spec's `r - 1`-squaring condition. -/
lemma test_eq_spec (n a d r : ℕ) (hodd : n % 2 = 1) (h3 : 3 < n)
    (hdr : n - 1 = 2 ^ r * d) (hd : d % 2 = 1) (hr : 1 ≤ r) :
    (test n d r a = true ↔
      a ^ d % n = 1 ∨ a ^ d % n = n - 1 ∨
        ∃ j, 1 ≤ j ∧ j ≤ r - 1 ∧ (a ^ d % n) ^ 2 ^ j % n = n - 1) := by
  have hn : 0 < n := by omega
  have hkey : ∀ j : ℕ, (a ^ d % n) ^ 2 ^ j % n = a ^ (2 ^ j * d) % n := by
    intro j
    rw [← Nat.pow_mod, ← pow_mul, mul_comm d]
  have hlast : (a ^ d % n) ^ 2 ^ r % n ≠ n - 1 := by
    rw [hkey r, ← hdr]
    exact pow_sub_one_mod_ne n d r a hodd h3 hdr hd
  simp only [test]
  by_cases hx1 : a ^ d % n = 1 ∨ a ^ d % n = n - 1
  · rw [if_pos hx1]
    constructor
    · intro _
      rcases hx1 with h | h
      · exact Or.inl h
      · exact Or.inr (Or.inl h)
    · intro _; rfl
  · rw [if_neg hx1, sqLoop_iff n hn r (a ^ d % n)]
    push_neg at hx1
    constructor
    · rintro ⟨j, h1, h2, he⟩
      by_cases hjr : j = r
      · exact absurd (hjr ▸ he) hlast
      · exact Or.inr (Or.inr ⟨j, h1, by omega, he⟩)
    · rintro (h | h | ⟨j, h1, h2, he⟩)
      · exact absurd h hx1.1
      · exact absurd h hx1.2
      · exact ⟨j, h1, by omega, he⟩

/-! ## Claim theorems -/

/-- Claim C3: for every non-negative secret and any draws that
`random.randint` can produce, the prime returned by `make_shares` is
strictly greater than the secret. (`find_prime` is called with the
secret's bit length `b`, and only returns candidates from
`[2^b, 2^(b+1)]`, all of which exceed the secret.) -/
theorem make_shares_prime_gt_secret (secret n : ℕ) (pdraws : List (ℕ × List ℕ))
    (cdraws : List ℕ) (shares : List (ℕ × ℕ)) (p : ℕ)
    (hok : ∀ pw ∈ pdraws, randintOk (2 ^ binLen secret) (2 ^ (binLen secret + 1)) pw.1)
    (h : make_shares secret n pdraws cdraws = some (shares, p)) :
    secret < p := by
  have hfp : find_prime (binLen secret) pdraws = some p := by
    unfold make_shares at h
    cases hf : find_prime (binLen secret) pdraws with
    | none => rw [hf] at h; simp at h
    | some q =>
      rw [hf] at h
      simp only [Option.map_some', Option.some.injEq, Prod.mk.injEq] at h
      rw [h.2]
  obtain ⟨ws, hmem, _⟩ := find_prime_some _ _ _ hfp
  have hlo := (hok _ hmem).1
  have hlt := binLen_lt secret
  omega

/-- Claim C3 witness: a concrete run (`secret = 4`, `n = 5`, candidate draw
`11` with Miller-Rabin witness `2`, coefficient draws `[1, 1]`). -/
theorem make_shares_prime_gt_secret_witness :
    ((∀ pw ∈ [(11, [2])], randintOk (2 ^ binLen 4) (2 ^ (binLen 4 + 1)) pw.1) ∧
      make_shares 4 5 [(11, [2])] [1, 1] =
        some ([(1, 6), (2, 10), (3, 5), (4, 2), (5, 1)], 11)) ∧ 4 < 11 :=
  ⟨⟨by decide, by decide⟩,
    make_shares_prime_gt_secret 4 5 [(11, [2])] [1, 1]
      [(1, 6), (2, 10), (3, 5), (4, 2), (5, 1)] 11 (by decide) (by decide)⟩

/-- Claim C5 (amended): for every `bits ≥ 1`, a value returned by
`find_prime(bits)` from legal `randint` draws lies in the half-open
interval `[2^bits, 2^(bits+1))` and passed the probabilistic primality
test. (The code draws from the CLOSED interval `[2^bits, 2^(bits+1)]`,
but the top endpoint is even and `> 3`, so it always fails `miller_rabin`;
at `bits = 0` the claim fails, see the counterexample.) -/
theorem find_prime_in_range (bits v : ℕ) (draws : List (ℕ × List ℕ))
    (hb : 1 ≤ bits)
    (hok : ∀ pw ∈ draws, randintOk (2 ^ bits) (2 ^ (bits + 1)) pw.1)
    (h : find_prime bits draws = some v) :
    (2 ^ bits ≤ v ∧ v < 2 ^ (bits + 1)) ∧
      ∃ ws, (v, ws) ∈ draws ∧ miller_rabin v ws = true := by
  obtain ⟨ws, hmem, hmr⟩ := find_prime_some bits v draws h
  have hbo := hok _ hmem
  have hne : v ≠ 2 ^ (bits + 1) := by
    intro he
    have h2 : v % 2 = 0 := by
      rw [he, pow_succ]
      exact Nat.mul_mod_left _ _
    have h4 : 4 ≤ 2 ^ (bits + 1) := by
      calc (4 : ℕ) = 2 ^ 2 := rfl
      _ ≤ 2 ^ (bits + 1) := Nat.pow_le_pow_right (by omega) (by omega)
    have hv2 : v ≠ 2 := by omega
    have hfalse := miller_rabin_even v ws h2 hv2
    simp [hfalse] at hmr
  exact ⟨⟨hbo.1, lt_of_le_of_ne hbo.2 hne⟩, ws, hmem, hmr⟩

/-- Claim C5 witness: `find_prime 3` with candidate draw `11` (witness `2`)
returns `11 ∈ [8, 16)`. -/
theorem find_prime_in_range_witness :
    (1 ≤ 3 ∧ (∀ pw ∈ [(11, [2])], randintOk (2 ^ 3) (2 ^ (3 + 1)) pw.1) ∧
      find_prime 3 [(11, [2])] = some 11) ∧
      ((2 ^ 3 ≤ 11 ∧ 11 < 2 ^ (3 + 1)) ∧
        ∃ ws, (11, ws) ∈ [(11, [2])] ∧ miller_rabin 11 ws = true) :=
  ⟨⟨by decide, by decide, by decide⟩,
    find_prime_in_range 3 11 [(11, [2])] (by decide) (by decide) (by decide)⟩

/-- Claim C5 counterexample: at `bits = 0` the loop accepts the legal draw
`2` (`miller_rabin 2 = True`), but `2` is not in `[2^0, 2^1) = {1}`; the
claim as stated (for every `bits`) is false. -/
theorem find_prime_out_of_range :
    find_prime 0 [(2, [])] = some 2 ∧ randintOk (2 ^ 0) (2 ^ (0 + 1)) 2 ∧
      ¬ (2 < 2 ^ (0 + 1)) := by decide

/-- Claim C6 (amended): malformed share sets raise no clear, distinct
error. The code performs no validation at all: the `xi != xm` guard
silently skips every equal-x pair, so the division by zero that duplicate
x-coordinates would otherwise cause can never be raised (the
`ZeroDivisionError` path depends only on the integer inputs, so this part
is exact for the real run), and the exact-arithmetic run completes with a
corrupted value — concretely `3` on `[(1,1),(1,2)]` with `p = 5`, see
`reconstruct_duplicate_x_returns_value`. A float `OverflowError` on huge
coordinates remains possible for any input, malformed or not, but that is
a generic overflow, not the claimed distinct malformed-share error, and is
outside this embedding. -/
theorem reconstruct_malformed_no_error (pts : List (ℤ × ℤ)) (p : ℤ) (hp : 0 < p)
    (hmal : ¬ (pts.map Prod.fst).Nodup ∨ (0 : ℤ) ∈ pts.map Prod.fst) :
    reconstructE pts p = some (reconstruct pts p) :=
  reconstructE_eq_some pts p (by omega)

/-- Claim C6 witness: a share set whose single point has `x = 0` takes no
error path and yields the exact-arithmetic value. -/
theorem reconstruct_malformed_no_error_witness :
    ((0 : ℤ) < 7 ∧ (0 : ℤ) ∈ [((0 : ℤ), 4)].map Prod.fst) ∧
      reconstructE [((0 : ℤ), 4)] 7 = some (reconstruct [((0 : ℤ), 4)] 7) :=
  ⟨⟨by decide, by decide⟩,
    reconstruct_malformed_no_error [((0 : ℤ), 4)] 7 (by decide) (Or.inr (by decide))⟩

/-- Claim C6 counterexample: on the duplicate-x list `[(1,1),(1,2)]` with
`p = 5` the program raises nothing and returns `3` (every operation in this
run is small integer arithmetic — the guard filters out both divisions, so
`prod` stays the int `1` — hence the real run and the embedding agree step
for step); the claim that such input raises a clear, distinct error is
false. -/
theorem reconstruct_duplicate_x_returns_value :
    reconstructE [((1 : ℤ), 1), (1, 2)] 5 = some 3 ∧
      ¬ (([((1 : ℤ), 1), (1, 2)]).map Prod.fst).Nodup := by
  refine ⟨?_, by decide⟩
  rw [reconstructE_eq_some _ _ (by omega)]
  norm_num [reconstruct, f0, lagProd, pymod, pyint, List.filter_cons, List.filter_nil]

/-- Permutation invariance of the exact-rational idealization: the outer
sum and every inner product range over the whole point list, and addition
and multiplication in `ℚ` are commutative. This is a fact about the MODEL
only: real IEEE-754 float summation rounds and is order-sensitive, so this
lemma does not transfer permutation invariance to the program's float run. -/
lemma reconstruct_perm_invariant_model (pts pts' : List (ℤ × ℤ)) (p : ℤ)
    (h : pts.Perm pts') : reconstruct pts p = reconstruct pts' p := by
  have hterm : ∀ pt : ℤ × ℤ, lagProd pts pt = lagProd pts' pt := fun pt =>
    List.Perm.prod_eq ((h.filter _).map _)
  have hsum : f0 pts = f0 pts' := by
    unfold f0
    calc (pts.map fun pt => lagProd pts pt * (pt.2 : ℚ)).sum
        = (pts.map fun pt => lagProd pts' pt * (pt.2 : ℚ)).sum := by
          simp only [hterm]
      _ = (pts'.map fun pt => lagProd pts' pt * (pt.2 : ℚ)).sum :=
          List.Perm.sum_eq (h.map _)
  unfold reconstruct
  rw [hsum]

/-- Claim C8: for odd `n > 3` with `get_dr (n-1) 0 = (d, r)` (so
`n - 1 = 2^r * d`, `d` odd) and a witness `a ∈ [2, n-2]`, the round passes
iff `x = a^d mod n` is `1` or `n - 1`, or one of at most `r - 1` squarings
of `x` yields `n - 1`. The source's loop actually runs up to `r` squarings,
but the `r`-th squaring looks at `a^(n-1) mod n`, which is never `n - 1`
(`pow_sub_one_mod_ne`), so the claimed `r - 1` bound is the observable
behaviour. -/
theorem miller_rabin_round_iff (n a d r : ℕ) (hodd : n % 2 = 1) (h3 : 3 < n)
    (ha2 : 2 ≤ a) (han : a ≤ n - 2) (hdr : get_dr (n - 1) 0 = (d, r)) :
    (test n d r a = true ↔
      a ^ d % n = 1 ∨ a ^ d % n = n - 1 ∨
        ∃ j, 1 ≤ j ∧ j ≤ r - 1 ∧ (a ^ d % n) ^ 2 ^ j % n = n - 1) := by
  have h1 : 0 < n - 1 := by omega
  have hsome : get_drF (n - 1) (n - 1) 0 = some (d, r) := by
    rw [get_drF_get_dr (n - 1) 0 h1, hdr]
  obtain ⟨ho, he, _⟩ := get_drF_spec (n - 1) (n - 1) 0 d r hsome
  have hdr' : n - 1 = 2 ^ r * d := by simpa using he
  have hr : 1 ≤ r := by
    by_contra hr0
    have hr' : r = 0 := by omega
    subst hr'
    simp only [pow_zero, one_mul] at hdr'
    omega
  exact test_eq_spec n a d r hodd h3 hdr' ho hr

/-- Claim C8 witness: `n = 5`, witness `a = 2`: `get_dr 4 0 = (1, 2)`,
`x = 2^1 mod 5 = 2`, and the first squaring hits `4 = n - 1`. -/
theorem miller_rabin_round_iff_witness :
    (5 % 2 = 1 ∧ 3 < 5 ∧ 2 ≤ 2 ∧ 2 ≤ 5 - 2 ∧ get_dr (5 - 1) 0 = (1, 2)) ∧
      (test 5 1 2 2 = true ↔
        2 ^ 1 % 5 = 1 ∨ 2 ^ 1 % 5 = 5 - 1 ∨
          ∃ j, 1 ≤ j ∧ j ≤ 2 - 1 ∧ (2 ^ 1 % 5) ^ 2 ^ j % 5 = 5 - 1) :=
  ⟨⟨by decide, by decide, by decide, by decide, by decide⟩,
    miller_rabin_round_iff 5 2 1 2 (by decide) (by decide) (by decide)
      (by decide) (by decide)⟩

/-- Claim C10: the recursive helper `get_dr` terminates for every positive
`d` (fuel `d` suffices for the fuel-indexed model), and for every odd
`n ≥ 5` the decomposition it computes is well-defined:
`n - 1 = 2^r * d` with `d` odd. -/
theorem get_dr_terminates :
    (∀ d r, 0 < d → (get_drF d d r).isSome = true) ∧
    (∀ n, n % 2 = 1 → 5 ≤ n →
      (get_dr (n - 1) 0).1 % 2 = 1 ∧
        2 ^ (get_dr (n - 1) 0).2 * (get_dr (n - 1) 0).1 = n - 1) := by
  constructor
  · intro d r hd
    exact get_drF_isSome d d r hd le_rfl
  · intro n _ h5
    have h1 : 0 < n - 1 := by omega
    have hs := get_drF_get_dr (n - 1) 0 h1
    obtain ⟨ho, he, _⟩ := get_drF_spec (n - 1) (n - 1) 0 (get_dr (n - 1) 0).1
      (get_dr (n - 1) 0).2 (by rw [Prod.mk.eta]; exact hs)
    exact ⟨ho, by simpa using he.symm⟩

/-- Claim C1 (code bug): the round-trip fails. A complete concrete run:
`secret = 4` (bit length 3), `n = 5`, so `k = 3`; `find_prime` legally
draws the prime `11 ∈ [8, 16]` (Miller-Rabin witness `2`),
`create_polynomial` legally draws coefficients `[1, 1]`, giving the
polynomial `4 + x + x^2` and shares `[(1,6),(2,10),(3,5),(4,2),(5,1)]`
(values reduced mod 11). The 3-element quorum `[(1,6),(2,10),(4,2)]`
reconstructs to `7`, not `4 = secret mod p`: the source's
division-based Lagrange formula is wrong once share values have been
reduced mod p (here the exact value is `int((-10/3) % 11) = 7`; the
float computation returns the same wrong value). -/
theorem roundtrip_fails :
    (randintOk (2 ^ binLen 4) (2 ^ (binLen 4 + 1)) 11 ∧ randintOk 2 (11 - 2) 2 ∧
      randintOk 1 11 1) ∧
    make_shares 4 5 [(11, [2])] [1, 1] =
      some ([(1, 6), (2, 10), (3, 5), (4, 2), (5, 1)], 11) ∧
    5 / 2 + 1 = 3 ∧
    List.Sublist [((1 : ℤ), 6), (2, 10), (4, 2)]
      (toZ [(1, 6), (2, 10), (3, 5), (4, 2), (5, 1)]) ∧
    reconstruct [((1 : ℤ), 6), (2, 10), (4, 2)] 11 = 7 ∧
    (7 : ℤ) ≠ 4 % 11 := by
  refine ⟨by decide, by decide, by decide, by decide, ?_, by decide⟩
  norm_num [reconstruct, f0, lagProd, pymod, pyint, List.filter_cons, List.filter_nil]

/-- Claim C2 (code bug): `reconstruct` does not work in the prime field.
On the points `[(1,0),(2,0),(4,1)]` with `p = 5` the source (exact
division, `int(f0 % p)`) returns `0`, while the field algorithm the spec
describes (`Li = Π -xj * modinv(xi - xj, p)`, `modinv v p = v^(p-2) % p`)
returns `2`. -/
theorem reconstruct_not_field_arithmetic :
    reconstruct [((1 : ℤ), 0), (2, 0), (4, 1)] 5 = 0 ∧
      reconstruct_spec [((1 : ℤ), 0), (2, 0), (4, 1)] 5 = 2 ∧ (0 : ℤ) ≠ 2 := by
  refine ⟨?_, by decide, by decide⟩
  norm_num [reconstruct, f0, lagProd, pymod, pyint, List.filter_cons, List.filter_nil]

/-- Claim C4 (code bug): `create_polynomial` draws with `randint(1, p)`,
whose upper endpoint is INCLUDED, so a coefficient can equal `p` — outside
the claimed range `[1, p-1]` and contradicting the function's own
docstring ("all coefficients are less than a large prime, p"). -/
theorem create_polynomial_coeff_can_equal_p :
    randintOk 1 11 11 ∧ create_polynomial 1 11 [11] = [11] ∧
      11 ∈ create_polynomial 1 11 [11] ∧ ¬ (11 ≤ 11 - 1) := by decide

/-- Claim C10 witness: `d = 12` decomposes as `12 = 2^2 * 3` (for `n = 13`). -/
theorem get_dr_terminates_witness :
    (0 < 12 ∧ (get_drF 12 12 0).isSome = true) ∧
      (13 % 2 = 1 ∧ 5 ≤ 13 ∧ (get_dr 12 0).1 % 2 = 1 ∧
        2 ^ (get_dr 12 0).2 * (get_dr 12 0).1 = 12) := by
  refine ⟨⟨by decide, get_dr_terminates.1 12 0 (by decide)⟩,
    by decide, by decide, ?_, ?_⟩
  · exact (get_dr_terminates.2 13 (by decide) (by decide)).1
  · exact (get_dr_terminates.2 13 (by decide) (by decide)).2

end Horcrux
